import Mathlib

/-!
# Verification of the qoreCSS build and runtime-injection logic

This file gives a shallow embedding of the qoreCSS npm module entry point
(`index.js`: `safeResolve` and `injectCss`) and of the build orchestrator
(`scripts/build.js`, modelled from the specification since its source is not
part of the provided tree), and proves or refutes the frozen claims about
them.

The DOM is modelled as the list of `link` elements in the document head,
each with an identity, an `href` string and an `onerror` handler slot.
JS string primitives (`includes`, `split`, `slice of lastIndexOf`) are
modelled by executable functions over `List Char`.
-/

namespace QoreCSS

/-- JS `String.prototype.includes` on character lists: `pat` occurs as a
contiguous substring of `l`. -/
def containsSub (pat : List Char) : List Char → Bool
  | [] => pat.isPrefixOf ([] : List Char)
  | c :: cs => pat.isPrefixOf (c :: cs) || containsSub pat cs

/-- JS `s.includes(pat)` for strings. -/
def substrOf (pat s : String) : Bool := containsSub pat.data s.data

/-- One character of the regex class `[a-f0-9]` used by the cleanup regex in
`index.js` (line 176) and by the hash-literal pattern. -/
def hexLower (c : Char) : Bool := ('a' ≤ c && c ≤ 'f') || ('0' ≤ c && c ≤ '9')

/-- The test of the cleanup regex `/^core(?:\.[a-f0-9]+)?\.min\.css$/` from
`index.js` line 176: either the plain `core.min.css` or
`core.<nonempty lowercase hex>.min.css`. -/
def coreRegexTest (s : String) : Bool :=
  let l := s.data
  (l == "core.min.css".data) ||
  (decide (14 ≤ l.length) && (l.take 5 == "core.".data) &&
    (l.drop (l.length - 8) == ".min.css".data) &&
    ((l.drop 5).take (l.length - 13)).all hexLower)

/-- The filename portion of an href as computed at `index.js` line 179:
`(href.split('/').pop() || '').split('?')[0].split('#')[0]` — the segment
after the last `/`, truncated at the first `?` and the first `#`. -/
def fileOf (href : String) : String :=
  let seg := (href.data.reverse.takeWhile (fun c => c != '/')).reverse
  ⟨(seg.takeWhile (fun c => c != '?')).takeWhile (fun c => c != '#')⟩

/-- The hashed filename literal embedded in `index.js` line 174
(placeholder replaced during build). -/
def cssFile : String := "core.5c7df4d0.min.css"

/-- A stylesheet `link` element: an identity (to track element reuse), its
`href` attribute and whether an `onerror` handler is currently attached. -/
structure Link where
  id : Nat
  href : String
  onerror : Bool
deriving DecidableEq

/-- The document state seen by `injectCss`: the head's `link` elements in
document order, the `src` of the detected script element (empty when none
was found), and a counter supplying identities for created elements. -/
structure Doc where
  links : List Link
  scriptSrc : String
  nextId : Nat
deriving DecidableEq

/-- `index.js` lines 168-171: the base path is the script src up to and
including its last `/`, and empty when the src is empty or has no `/`. -/
def basePathOf (s : String) : String :=
  ⟨(s.data.reverse.dropWhile (fun c => c != '/')).reverse⟩

/-- `index.js` line 185: a link counts as a hashed link when its href
contains the current hashed filename. -/
def hashedB (l : Link) : Bool := substrOf cssFile l.href

/-- `index.js` line 183: a fallback link is one whose href contains
`qore.css`. -/
def qoreB (l : Link) : Bool := substrOf "qore.css" l.href

/-- `index.js` line 180: a link is stale when its filename portion matches
the core-family regex but is not exactly the current hashed filename. -/
def staleB (l : Link) : Bool := coreRegexTest (fileOf l.href) && fileOf l.href != cssFile

/-- `index.js` lines 177-181: remove every stale link. -/
def step1 (ls : List Link) : List Link := ls.filter (fun l => !(staleB l))

/-- `index.js` lines 182-184: remove every fallback (`qore.css`) link. -/
def step2 (ls : List Link) : List Link := ls.filter (fun l => !(qoreB l))

/-- `index.js` lines 185-186: keep the first hashed link, remove every later
hashed link; `seen` records whether a hashed link was already kept. -/
def dropExtraHashed (seen : Bool) : List Link → List Link
  | [] => []
  | l :: ls =>
    if hashedB l then
      if seen then dropExtraHashed true ls else l :: dropExtraHashed true ls
    else l :: dropExtraHashed seen ls

/-- `index.js` lines 189-194: the freshly created stylesheet link, with the
`onerror` fallback handler attached. -/
def mkLink (bp : String) (i : Nat) : Link :=
  { id := i, href := bp ++ cssFile, onerror := true }

/-- `index.js` line 193: the body of the attached `onerror` handler — it
detaches itself and rewrites the href to the plain fallback filename. -/
def onerrorHandler (bp : String) (l : Link) : Link :=
  { l with onerror := false, href := bp ++ "qore.css" }

/-- The browser dispatching a stylesheet load failure: the handler runs when
one is attached, otherwise nothing happens. -/
def fireError (bp : String) (l : Link) : Link :=
  if l.onerror then onerrorHandler bp l else l

/-- `index.js` lines 154-204 (the successful path, faults modelled
separately): scan and clean the head's links, then reuse the remaining
hashed link or create, append and return a new one. -/
def injectCss (d : Doc) : Doc × Option Link :=
  let bp := basePathOf d.scriptSrc
  let ls2 := step2 (step1 d.links)
  match (ls2.filter hashedB).head? with
  | some l => ({ d with links := dropExtraHashed false ls2 }, some l)
  | none =>
    let newL := mkLink bp d.nextId
    ({ d with links := ls2 ++ [newL], nextId := d.nextId + 1 }, some newL)

/-- The reconciled head state: no stale link, no fallback link, exactly one
hashed link. -/
def goodLinks (ls : List Link) : Prop :=
  (∀ l ∈ ls, staleB l = false) ∧ (∀ l ∈ ls, qoreB l = false) ∧
    (ls.filter hashedB).length = 1

/-- `injectCss` with exception injection: the body of the `try` block of
`index.js` lines 156-200, where a fault oracle may raise an exception
(carrying its message) at any of the five stages of the algorithm — base
path detection, stale-link sweep, fallback sweep, duplicate sweep,
creation/append.  A raised exception aborts the remaining stages and
carries out the document as mutated so far, exactly as a thrown JS
exception leaves the partially mutated DOM in place. -/
def injectCssB (oracle : Nat → Option String) (d : Doc) :
    Except (String × Doc) (Doc × Link) :=
  match oracle 0 with
  | some e => .error (e, d)
  | none =>
    let bp := basePathOf d.scriptSrc
    let ls1 := step1 d.links
    match oracle 1 with
    | some e => .error (e, ⟨ls1, d.scriptSrc, d.nextId⟩)
    | none =>
      let ls2 := step2 ls1
      match oracle 2 with
      | some e => .error (e, ⟨ls2, d.scriptSrc, d.nextId⟩)
      | none =>
        match (ls2.filter hashedB).head? with
        | some l =>
          match oracle 3 with
          | some e => .error (e, ⟨dropExtraHashed false ls2, d.scriptSrc, d.nextId⟩)
          | none => .ok (⟨dropExtraHashed false ls2, d.scriptSrc, d.nextId⟩, l)
        | none =>
          match oracle 4 with
          | some e => .error (e, ⟨ls2, d.scriptSrc, d.nextId⟩)
          | none =>
            let newL := mkLink bp d.nextId
            .ok (⟨ls2 ++ [newL], d.scriptSrc, d.nextId + 1⟩, newL)

/-- `index.js` lines 201-203: the `catch` clause around the injection body —
any exception raised inside is logged and the function returns normally
(with no link, the JS `undefined`), never re-raising. -/
def injectCssSafe (oracle : Nat → Option String) (d : Doc) :
    Except (String × Doc) (Doc × Option Link) :=
  match injectCssB oracle d with
  | .ok (d', l) => .ok (d', some l)
  | .error (_, d') => .ok (d', none)

/-- `isOk` discriminator for `Except` results. -/
def isOkB : Except (String × Doc) (Doc × Option Link) → Bool
  | .ok _ => true
  | .error _ => false

/-- The environment `safeResolve` (`index.js` lines 45-66) runs in:
`requireResolve` is `require.resolve` when present (its result `none`
models it throwing); `pathResolve` is the loaded path module's `resolve`;
`dirname` is `__dirname` when it is a string; `existsSync` is
`fs.existsSync` when the fs module was loaded. -/
structure ResolveEnv where
  requireResolve : Option (String → Option String)
  pathResolve : String → String → String
  dirname : Option String
  existsSync : Option (String → Bool)

/-- `index.js` lines 45-66, `safeResolve`: try `require.resolve`; on
absence or failure fall back to joining `__dirname` (or the empty string)
with the file, and when an existence check is available and fails, throw
`file not found: <path>`. -/
def safeResolve (env : ResolveEnv) (file : String) : Except String String :=
  let viaRequire : Option String :=
    match env.requireResolve with
    | some rr => rr file
    | none => none
  match viaRequire with
  | some r => .ok r
  | none =>
    let baseDir := env.dirname.getD ""
    let abs := env.pathResolve baseDir file
    match env.existsSync with
    | some ex => if ex abs then .ok abs else .error ("file not found: " ++ abs)
    | none => .ok abs

/-- `index.js` lines 26-27: the path shim `{resolve:(_d,f)=>f}` installed
when `require` is absent or `node:path` fails to load. -/
def fallbackPathResolve : String → String → String := fun _ f => f

/-- `index.js` lines 24-35 and 48: the module-level environment. When
`require` is not a function, the path shim is installed, no fs module is
loaded, and `require.resolve` is unavailable; otherwise the optionally
loaded `node:path` and `node:fs` modules and `require.resolve` are used. -/
def loadEnv (requireAvailable : Bool)
    (nodePath : Option (String → String → String))
    (nodeFs : Option (String → Bool))
    (requireResolveFn : Option (String → Option String))
    (dirname : Option String) : ResolveEnv :=
  { requireResolve := if requireAvailable then requireResolveFn else none
    pathResolve := if requireAvailable then nodePath.getD fallbackPathResolve
      else fallbackPathResolve
    dirname := dirname
    existsSync := if requireAvailable then nodeFs else none }

/-- Outcome of one `fsPromises.unlink` call during build cleanup: success,
a not-found (`ENOENT`) failure, or any other failure. -/
inductive UnlinkRes where
  | ok : UnlinkRes
  | enoent : UnlinkRes
  | fail (msg : String) : UnlinkRes
deriving DecidableEq

/-- Modelled from the spec: the output directory, a finite map from file
names to file contents (`scripts/build.js` operates on the working
directory; its source is not part of the provided tree). -/
abbrev FS : Type := List (String × String)

/-- Write (create or overwrite) a file. -/
def setFS (fs : FS) (k v : String) : FS :=
  if (List.lookup k fs).isSome then
    fs.map (fun p => if p.1 == k then (k, v) else p)
  else fs ++ [(k, v)]

/-- Delete a file. -/
def eraseFS (fs : FS) (k : String) : FS := fs.filter (fun p => p.1 != k)

/-- Whether `s` ends with `suf`. -/
def endsWithStr (suf s : String) : Bool :=
  decide (suf.data.length ≤ s.data.length) &&
    (s.data.drop (s.data.length - suf.data.length) == suf.data)

/-- Strip a trailing `.gz` or `.br` compressed-variant extension. -/
def stripComp (n : String) : String :=
  if endsWithStr ".gz" n then ⟨n.data.take (n.data.length - 3)⟩
  else if endsWithStr ".br" n then ⟨n.data.take (n.data.length - 3)⟩
  else n

/-- Modelled from the spec (§4.3): a file is a stale artifact when its name,
with any compressed-variant extension stripped, matches the
hashed-or-plain core family and it is not the target filename or one of
the target's compressed variants. -/
def isStaleArtifact (target n : String) : Bool :=
  coreRegexTest (stripComp n) && n != target && n != (target ++ ".gz") &&
    n != (target ++ ".br")

/-- Modelled from the spec (§4.3): delete the listed files one by one;
`ENOENT` is absorbed and the file skipped, any other failure aborts. -/
def deleteStale (ul : String → UnlinkRes) : List String → FS → Except String FS
  | [], fs => .ok fs
  | n :: rest, fs =>
    match ul n with
    | .ok => deleteStale ul rest (eraseFS fs n)
    | .enoent => deleteStale ul rest fs
    | .fail e => .error e

/-- Match the embedded hash-literal pattern `core.<8 hex>.min.css` at the
front of the character list, returning the remainder on success. -/
def matchLit (l : List Char) : Option (List Char) :=
  if "core.".data.isPrefixOf l then
    let r := l.drop 5
    if decide ((r.take 8).length = 8) && (r.take 8).all hexLower &&
        ".min.css".data.isPrefixOf (r.drop 8) then
      some (r.drop 16)
    else none
  else none

/-- Modelled from the spec (§4.5): scan the module source and replace every
occurrence of the hash-literal pattern with the target filename; the flag
records whether any occurrence was found.  `fuel` bounds the scan by the
input length. -/
def replFamAux (t : List Char) : Nat → List Char → List Char × Bool
  | _, [] => ([], false)
  | 0, l => (l, false)
  | fuel + 1, c :: cs =>
    match matchLit (c :: cs) with
    | some rest =>
      let out := replFamAux t fuel rest
      (t ++ out.1, true)
    | none =>
      let out := replFamAux t fuel cs
      (c :: out.1, out.2)

/-- Replace every embedded hash literal in `s` by `target`. -/
def replFam (target s : String) : String × Bool :=
  let out := replFamAux target.data s.data.length s.data
  (⟨out.1⟩, out.2)

/-- Whether the hash-literal pattern occurs anywhere in the character
list. -/
def containsLitAux : Nat → List Char → Bool
  | 0, _ => false
  | _, [] => false
  | fuel + 1, c :: cs => (matchLit (c :: cs)).isSome || containsLitAux fuel cs

/-- Whether the module source contains an embedded hash literal. -/
def containsLit (s : String) : Bool := containsLitAux s.data.length s.data

/-- An 8-character lowercase-hex hash string. -/
def is8HexStr (h : String) : Bool :=
  decide (h.data.length = 8) && h.data.all hexLower

/-- The hashed artifact filename for hash `h`. -/
def targetOf (h : String) : String := "core." ++ h ++ ".min.css"

/-- Modelled from the spec (§4.1, §4.3-§4.5): the Build Orchestrator.
`scripts/build.js` is not among the provided sources (only its tests are),
so the orchestrator is modelled from the specification: read the source
stylesheet, process it (`procF`; pass-through in offline mode), hash the
processed bytes (`hashF`, the Content Hasher collaborator), delete stale
artifacts race-tolerantly via the unlink primitive `ul`, write the hashed
artifact, persist the hash to `build.hash`, write the gzip and brotli
variants (`gzF`, `brF`), and patch the embedded hash literal in
`index.js`, failing when no literal is found. -/
def buildM (hashF procF gzF brF : String → String) (ul : String → UnlinkRes)
    (fs : FS) : Except String (String × FS) :=
  match List.lookup "qore.css" fs with
  | none => .error "source stylesheet missing"
  | some src =>
    let css := procF src
    let h := hashF css
    let target := targetOf h
    let stale := (fs.map Prod.fst).filter (isStaleArtifact target)
    match deleteStale ul stale fs with
    | .error e => .error e
    | .ok fs1 =>
      let fs2 := setFS fs1 target css
      let fs3 := setFS fs2 "build.hash" h
      let fs4 := setFS fs3 (target ++ ".gz") (gzF css)
      let fs5 := setFS fs4 (target ++ ".br") (brF css)
      match List.lookup "index.js" fs5 with
      | none => .error "module entry missing"
      | some txt =>
        let patched := replFam target txt
        if patched.2 then .ok (h, setFS fs5 "index.js" patched.1)
        else .error "hash literal not found"

/-- The ordinary build invocation: every unlink succeeds. -/
def buildRun (hashF procF gzF brF : String → String) (fs : FS) :
    Except String (String × FS) :=
  buildM hashF procF gzF brF (fun _ => UnlinkRes.ok) fs

/-- The file names present in the output directory. -/
def namesOf (fs : FS) : List String := fs.map Prod.fst

/-- The write phase of a build: artifact, hash record, compressed variants,
patched module entry (spec §4.1 step order). -/
def writeArtifacts (h css gzc brc txt2 : String) (fs1 : FS) : FS :=
  setFS (setFS (setFS (setFS (setFS fs1 (targetOf h) css) "build.hash" h)
    (targetOf h ++ ".gz") gzc) (targetOf h ++ ".br") brc) "index.js" txt2

/-- `containsSub` agrees with the substring decomposition. -/
theorem containsSub_iff (pat l : List Char) :
    containsSub pat l = true ↔ ∃ x y, l = x ++ (pat ++ y) := by
  induction l with
  | nil =>
    simp only [containsSub, List.isPrefixOf_iff_prefix, List.prefix_nil]
    constructor
    · intro h
      exact ⟨[], [], by simp [h]⟩
    · rintro ⟨x, y, hxy⟩
      rcases List.append_eq_nil.mp hxy.symm with ⟨_, hpy⟩
      exact (List.append_eq_nil.mp hpy).1
  | cons c cs ih =>
    simp only [containsSub, Bool.or_eq_true, List.isPrefixOf_iff_prefix, ih]
    constructor
    · rintro (⟨t, ht⟩ | ⟨x, y, hxy⟩)
      · exact ⟨[], t, by simp [ht]⟩
      · exact ⟨c :: x, y, by simp [hxy]⟩
    · rintro ⟨x, y, hxy⟩
      cases x with
      | nil => exact Or.inl ⟨y, by simpa using hxy.symm⟩
      | cons a x' =>
        have h2 : c = a ∧ cs = x' ++ (pat ++ y) := by simpa using hxy
        exact Or.inr ⟨x', y, h2.2⟩

/-- Every element of a `dropExtraHashed` result came from the input list. -/
theorem mem_of_mem_dropExtraHashed {l : Link} :
    ∀ {b : Bool} {ls : List Link}, l ∈ dropExtraHashed b ls → l ∈ ls := by
  intro b ls
  induction ls generalizing b with
  | nil => intro h; exact absurd h (by simp [dropExtraHashed])
  | cons a as ih =>
    intro h
    by_cases ha : hashedB a = true
    · cases b with
      | true =>
        simp only [dropExtraHashed, ha, if_true] at h
        exact List.mem_cons_of_mem a (ih h)
      | false =>
        simp only [dropExtraHashed, ha, if_true, if_false] at h
        rcases List.mem_cons.mp h with h | h
        · exact h ▸ List.mem_cons_self a as
        · exact List.mem_cons_of_mem a (ih h)
    · simp only [dropExtraHashed, ha, if_false] at h
      rcases List.mem_cons.mp h with h | h
      · exact h ▸ List.mem_cons_self a as
      · exact List.mem_cons_of_mem a (ih h)

/-- After a hashed link was already kept, every further hashed link is gone. -/
theorem filter_dropExtraHashed_true (ls : List Link) :
    (dropExtraHashed true ls).filter hashedB = [] := by
  induction ls with
  | nil => rfl
  | cons a as ih =>
    by_cases ha : hashedB a = true
    · simpa [dropExtraHashed, ha] using ih
    · simp [dropExtraHashed, ha, List.filter_cons, ih]

/-- The deduplication keeps exactly the first hashed link. -/
theorem filter_dropExtraHashed_false (ls : List Link) :
    (dropExtraHashed false ls).filter hashedB = (ls.filter hashedB).take 1 := by
  induction ls with
  | nil => rfl
  | cons a as ih =>
    by_cases ha : hashedB a = true
    · simp [dropExtraHashed, ha, List.filter_cons, filter_dropExtraHashed_true]
    · simp [dropExtraHashed, ha, List.filter_cons, ih]

/-- With no hashed link in sight the deduplication is the identity. -/
theorem dropExtraHashed_eq_self_of_none {ls : List Link}
    (h : ∀ l ∈ ls, hashedB l = false) : ∀ b, dropExtraHashed b ls = ls := by
  induction ls with
  | nil => intro b; rfl
  | cons a as ih =>
    intro b
    have ha : hashedB a = false := h a (List.mem_cons_self a as)
    have has : ∀ l ∈ as, hashedB l = false := fun l hl => h l (List.mem_cons_of_mem a hl)
    simp [dropExtraHashed, ha, ih has b]

/-- With at most one hashed link the deduplication is the identity. -/
theorem dropExtraHashed_eq_self {ls : List Link}
    (h : (ls.filter hashedB).length ≤ 1) : dropExtraHashed false ls = ls := by
  induction ls with
  | nil => rfl
  | cons a as ih =>
    by_cases ha : hashedB a = true
    · have hnil : as.filter hashedB = [] := by
        have := h
        simp only [List.filter_cons, ha, if_true, List.length_cons] at this
        exact List.eq_nil_of_length_eq_zero (by omega)
      have has : ∀ l ∈ as, hashedB l = false := by
        intro l hl
        by_contra hc
        have : l ∈ as.filter hashedB := List.mem_filter.mpr ⟨hl, by simpa using hc⟩
        simp [hnil] at this
      simp [dropExtraHashed, ha, dropExtraHashed_eq_self_of_none has]
    · have has : (as.filter hashedB).length ≤ 1 := by
        have := h
        simpa [List.filter_cons, ha] using this
      simp [dropExtraHashed, ha, ih has]

/-- Non-hashed links survive the deduplication. -/
theorem mem_dropExtraHashed_of_not_hashed {l : Link} {ls : List Link}
    (hm : l ∈ ls) (h : hashedB l = false) : ∀ b, l ∈ dropExtraHashed b ls := by
  induction ls generalizing l with
  | nil => cases hm
  | cons a as ih =>
    intro b
    rcases List.mem_cons.mp hm with rfl | hmem
    · simp [dropExtraHashed, h]
    · by_cases ha : hashedB a = true
      · cases b with
        | true => simpa [dropExtraHashed, ha] using ih hmem h true
        | false =>
          simp only [dropExtraHashed, ha, if_true, if_false]
          exact List.mem_cons_of_mem a (ih hmem h true)
      · simp only [dropExtraHashed, ha, if_false]
        exact List.mem_cons_of_mem a (ih hmem h b)

/-- `takeWhile` right after `dropWhile` with the same predicate yields nothing. -/
theorem takeWhile_dropWhile_nil (p : Char → Bool) (l : List Char) :
    (l.dropWhile p).takeWhile p = [] := by
  induction l with
  | nil => rfl
  | cons a as ih =>
    by_cases h : p a = true
    · simpa [List.dropWhile_cons_of_pos h] using ih
    · simp [List.dropWhile_cons_of_neg (by simpa using h),
        List.takeWhile_cons_of_neg (by simpa using h)]

/-- The filename portion of the freshly injected href is exactly the hashed
filename, for every script src. -/
theorem fileOf_basePath_append (s : String) :
    fileOf (basePathOf s ++ cssFile) = cssFile := by
  have hq : ∀ c ∈ cssFile.data.reverse, (c != '/') = true := by decide
  have hdata : (basePathOf s ++ cssFile).data =
      (s.data.reverse.dropWhile (fun c => c != '/')).reverse ++ cssFile.data := rfl
  unfold fileOf
  rw [hdata, List.reverse_append, List.reverse_reverse,
    List.takeWhile_append_of_pos hq, takeWhile_dropWhile_nil, List.append_nil,
    List.reverse_reverse]
  show (⟨(cssFile.data.takeWhile fun c => c != '?').takeWhile fun c => c != '#'⟩ : String) = cssFile
  decide

/-- The freshly injected link counts as a hashed link. -/
theorem hashedB_mkLink (bp : String) (i : Nat) : hashedB (mkLink bp i) = true := by
  unfold hashedB mkLink substrOf
  exact (containsSub_iff cssFile.data (bp ++ cssFile).data).mpr
    ⟨bp.data, [], by simp⟩

/-- The freshly injected link is never stale. -/
theorem staleB_mkLink (s : String) (i : Nat) :
    staleB (mkLink (basePathOf s) i) = false := by
  unfold staleB
  have : fileOf (mkLink (basePathOf s) i).href = cssFile := fileOf_basePath_append s
  simp [this]

/-- On a reconciled document `injectCss` changes nothing and returns the
unique hashed link. -/
theorem injectCss_fixed {d : Doc} (h : goodLinks d.links) :
    ∃ l, d.links.filter hashedB = [l] ∧ injectCss d = (d, some l) := by
  obtain ⟨h1, h2, h3⟩ := h
  obtain ⟨l, hl⟩ := List.length_eq_one.mp h3
  refine ⟨l, hl, ?_⟩
  have hs1 : step1 d.links = d.links :=
    List.filter_eq_self.mpr (by intro a ha; simp [h1 a ha])
  have hs2 : step2 d.links = d.links :=
    List.filter_eq_self.mpr (by intro a ha; simp [h2 a ha])
  have hde : dropExtraHashed false d.links = d.links :=
    dropExtraHashed_eq_self (by omega)
  simp [injectCss, hs1, hs2, hl, hde]

/-- After one `injectCss` run whose injected href avoids the `qore.css`
substring, the head is reconciled and the returned link is its unique
hashed link. -/
theorem injectCss_establishes {d : Doc}
    (h : substrOf "qore.css" (basePathOf d.scriptSrc ++ cssFile) = false) :
    ∃ l, (injectCss d).2 = some l ∧
      (injectCss d).1.links.filter hashedB = [l] ∧
      goodLinks (injectCss d).1.links := by
  have hA : ∀ l ∈ step2 (step1 d.links), staleB l = false := by
    intro l hl
    have := (List.mem_filter.mp ((List.mem_filter.mp hl).1)).2
    simpa using this
  have hB : ∀ l ∈ step2 (step1 d.links), qoreB l = false := by
    intro l hl
    have := (List.mem_filter.mp hl).2
    simpa using this
  rcases hh : ((step2 (step1 d.links)).filter hashedB).head? with _ | l
  · -- no hashed link survives the cleanup: a fresh link is created
    have hnil : (step2 (step1 d.links)).filter hashedB = [] :=
      List.head?_eq_none_iff.mp hh
    have hrun : injectCss d =
        ((⟨step2 (step1 d.links) ++ [mkLink (basePathOf d.scriptSrc) d.nextId],
          d.scriptSrc, d.nextId + 1⟩ : Doc),
         some (mkLink (basePathOf d.scriptSrc) d.nextId)) := by
      simp [injectCss, hh]
    refine ⟨mkLink (basePathOf d.scriptSrc) d.nextId, by rw [hrun], ?_, ?_, ?_, ?_⟩
    · rw [hrun]
      simp [List.filter_append, hnil, List.filter_cons, hashedB_mkLink]
    · rw [hrun]
      intro l hl
      rcases List.mem_append.mp hl with hl | hl
      · exact hA l hl
      · have : l = mkLink (basePathOf d.scriptSrc) d.nextId := by simpa using hl
        exact this ▸ staleB_mkLink d.scriptSrc d.nextId
    · rw [hrun]
      intro l hl
      rcases List.mem_append.mp hl with hl | hl
      · exact hB l hl
      · have : l = mkLink (basePathOf d.scriptSrc) d.nextId := by simpa using hl
        subst this
        simpa [qoreB, mkLink] using h
    · rw [hrun]
      simp [List.filter_append, hnil, List.filter_cons, hashedB_mkLink]
  · -- a hashed link survives: it is kept, later ones are removed
    obtain ⟨t, ht⟩ := List.head?_eq_some_iff.mp hh
    have hrun : injectCss d =
        ({ d with links := dropExtraHashed false (step2 (step1 d.links)) }, some l) := by
      simp [injectCss, hh]
    have hfl : (dropExtraHashed false (step2 (step1 d.links))).filter hashedB = [l] := by
      rw [filter_dropExtraHashed_false, ht]
      rfl
    refine ⟨l, by rw [hrun], ?_, ?_, ?_, ?_⟩
    · rw [hrun]; exact hfl
    · rw [hrun]
      intro a ha
      exact hA a (mem_of_mem_dropExtraHashed ha)
    · rw [hrun]
      intro a ha
      exact hB a (mem_of_mem_dropExtraHashed ha)
    · rw [hrun]; rw [hfl]; rfl

/-- When no hashed link survives the cleanup, `injectCss` creates, appends
and returns a fresh link. -/
theorem injectCss_eq_create {d : Doc}
    (hh : ((step2 (step1 d.links)).filter hashedB).head? = none) :
    injectCss d =
      ((⟨step2 (step1 d.links) ++ [mkLink (basePathOf d.scriptSrc) d.nextId],
        d.scriptSrc, d.nextId + 1⟩ : Doc),
       some (mkLink (basePathOf d.scriptSrc) d.nextId)) := by
  simp [injectCss, hh]

/-- When a hashed link survives the cleanup, `injectCss` keeps the first
one, removes the others and returns the kept one. -/
theorem injectCss_eq_reuse {d : Doc} {a : Link}
    (hh : ((step2 (step1 d.links)).filter hashedB).head? = some a) :
    injectCss d =
      ((⟨dropExtraHashed false (step2 (step1 d.links)), d.scriptSrc, d.nextId⟩ : Doc),
       some a) := by
  simp [injectCss, hh]

/-- Links surviving both sweeps are non-stale members of the original head. -/
theorem mem_step_sweeps {l : Link} {ls : List Link} (h : l ∈ step2 (step1 ls)) :
    l ∈ ls ∧ staleB l = false ∧ qoreB l = false := by
  have h1 := List.mem_filter.mp h
  have h2 := List.mem_filter.mp h1.1
  exact ⟨h2.1, by simpa using h2.2, by simpa using h1.2⟩

example : fileOf "https://x/core.123.min.css?v=1#f" = "core.123.min.css" := by decide
example : coreRegexTest "core.5c7df4d0.min.css" = true := by decide
example : coreRegexTest "core.min.css" = true := by decide
example : coreRegexTest "core.extra.css" = false := by decide
example : coreRegexTest "precore.5c7df4d0.min.css" = false := by decide
example : basePathOf "https://a/b/index.js" = "https://a/b/" := by decide
example : basePathOf "" = "" := by decide
example : basePathOf "abc" = "" := by decide
example : substrOf "qore.css" "https://x/qore.css/core.5c7df4d0.min.css" = true := by decide

/-- C2 (counterexample): the claim fails as stated.  When the detected
script src contains `qore.css` as a path segment, the link injected by the
first run itself matches the fallback filter, so the second run removes it
and creates a fresh element: the second invocation neither leaves the
document unmodified nor returns the already-present link element. -/
theorem injectCss_second_run_replaces_pathological :
    (injectCss (injectCss (⟨[], "https://ex.com/qore.css/index.js", 0⟩ : Doc)).1).1 ≠
      (injectCss (⟨[], "https://ex.com/qore.css/index.js", 0⟩ : Doc)).1 ∧
    (injectCss (injectCss (⟨[], "https://ex.com/qore.css/index.js", 0⟩ : Doc)).1).2 ≠
      (injectCss (⟨[], "https://ex.com/qore.css/index.js", 0⟩ : Doc)).2 := by
  decide

/-- C2 (amended): provided the computed base path joined with the hashed
filename does not contain `qore.css`, invoking `injectCss` twice in the
same document leaves exactly one link referencing the current hashed
filename in the head, and the second invocation returns the already
present link element without modifying the document. -/
theorem injectCss_idempotent_amended (d : Doc)
    (h : substrOf "qore.css" (basePathOf d.scriptSrc ++ cssFile) = false) :
    ∃ l, (injectCss d).2 = some l ∧ l ∈ (injectCss d).1.links ∧
      injectCss (injectCss d).1 = ((injectCss d).1, some l) ∧
      ((injectCss (injectCss d).1).1.links.filter hashedB).length = 1 := by
  obtain ⟨l, hret, hfl, hgood⟩ := injectCss_establishes h
  obtain ⟨l', hfl', hfix⟩ := injectCss_fixed hgood
  have hll : l' = l := by
    have := hfl'.symm.trans hfl
    simpa using this
  subst hll
  refine ⟨l', hret, ?_, hfix, ?_⟩
  · have : l' ∈ (injectCss d).1.links.filter hashedB := by
      rw [hfl]
      exact List.mem_cons_self l' []
    exact (List.mem_filter.mp this).1
  · rw [hfix]
    simp [hfl]

/-- C2 (witness): the amended idempotence at a concrete document. -/
theorem injectCss_idempotent_amended_witness :
    substrOf "qore.css"
      (basePathOf (⟨[], "https://cdn.ex.com/lib/index.js", 0⟩ : Doc).scriptSrc ++ cssFile) = false ∧
    (∃ l, (injectCss (⟨[], "https://cdn.ex.com/lib/index.js", 0⟩ : Doc)).2 = some l ∧
      l ∈ (injectCss (⟨[], "https://cdn.ex.com/lib/index.js", 0⟩ : Doc)).1.links ∧
      injectCss (injectCss (⟨[], "https://cdn.ex.com/lib/index.js", 0⟩ : Doc)).1 =
        ((injectCss (⟨[], "https://cdn.ex.com/lib/index.js", 0⟩ : Doc)).1, some l) ∧
      ((injectCss (injectCss (⟨[], "https://cdn.ex.com/lib/index.js", 0⟩ : Doc)).1).1.links.filter
        hashedB).length = 1) :=
  ⟨by decide, injectCss_idempotent_amended ⟨[], "https://cdn.ex.com/lib/index.js", 0⟩ (by decide)⟩

/-- C3 (confirmed): every link in the head whose filename portion (last
path segment of the href attribute, query string and fragment stripped)
matches the `core(.hexhash)?.min.css` family but is not exactly the
current target filename is removed by `injectCss`. -/
theorem injectCss_evicts_stale (d : Doc) (l : Link) (_hm : l ∈ d.links)
    (h1 : coreRegexTest (fileOf l.href) = true) (h2 : fileOf l.href ≠ cssFile) :
    l ∉ (injectCss d).1.links := by
  intro hmem
  have hstale : staleB l = true := by
    have hb : (fileOf l.href != cssFile) = true := bne_iff_ne.mpr h2
    simp [staleB, h1, hb]
  rcases hh : ((step2 (step1 d.links)).filter hashedB).head? with _ | a
  · rw [injectCss_eq_create hh] at hmem
    rcases List.mem_append.mp hmem with hmem | hmem
    · have := (mem_step_sweeps hmem).2.1
      rw [hstale] at this
      cases this
    · have hl : l = mkLink (basePathOf d.scriptSrc) d.nextId := by simpa using hmem
      apply h2
      rw [hl]
      exact fileOf_basePath_append d.scriptSrc
  · rw [injectCss_eq_reuse hh] at hmem
    have := (mem_step_sweeps (mem_of_mem_dropExtraHashed hmem)).2.1
    rw [hstale] at this
    cases this

/-- C3 (witness): a stale hashed link with a query string is evicted from a
concrete document. -/
theorem injectCss_evicts_stale_witness :
    ((⟨5, "core.123.min.css?old=1", false⟩ : Link) ∈
        (⟨[⟨5, "core.123.min.css?old=1", false⟩], "", 0⟩ : Doc).links ∧
      coreRegexTest (fileOf (⟨5, "core.123.min.css?old=1", false⟩ : Link).href) = true ∧
      fileOf (⟨5, "core.123.min.css?old=1", false⟩ : Link).href ≠ cssFile) ∧
    (⟨5, "core.123.min.css?old=1", false⟩ : Link) ∉
      (injectCss (⟨[⟨5, "core.123.min.css?old=1", false⟩], "", 0⟩ : Doc)).1.links :=
  ⟨by decide, injectCss_evicts_stale ⟨[⟨5, "core.123.min.css?old=1", false⟩], "", 0⟩
    ⟨5, "core.123.min.css?old=1", false⟩ (by decide) (by decide) (by decide)⟩

/-- C4 (counterexample): the claim fails as stated.  When the detected
script src contains `qore.css` as a path segment, the injected hashed
link's own href contains the plain fallback filename, so after a
successful run a link whose href contains `qore.css` coexists with the
present hashed link. -/
theorem injectCss_fallback_coexists_pathological :
    (∃ l ∈ (injectCss (⟨[], "https://h.ex/qore.css/index.js", 0⟩ : Doc)).1.links,
      hashedB l = true) ∧
    (∃ l ∈ (injectCss (⟨[], "https://h.ex/qore.css/index.js", 0⟩ : Doc)).1.links,
      substrOf "qore.css" l.href = true) := by
  decide

/-- C4 (amended): after any successful `injectCss` run, at most one link
referencing the current hashed filename exists in the head — this part
unconditionally; and provided the computed base path joined with the
hashed filename does not contain `qore.css`, no link whose href contains
the plain fallback filename `qore.css` remains at all. -/
theorem injectCss_link_invariant_amended (d : Doc) :
    ((injectCss d).1.links.filter hashedB).length ≤ 1 ∧
    (substrOf "qore.css" (basePathOf d.scriptSrc ++ cssFile) = false →
      ∀ l ∈ (injectCss d).1.links, substrOf "qore.css" l.href = false) := by
  constructor
  · rcases hh : ((step2 (step1 d.links)).filter hashedB).head? with _ | a
    · have hnil : (step2 (step1 d.links)).filter hashedB = [] :=
        List.head?_eq_none_iff.mp hh
      rw [injectCss_eq_create hh]
      simp [List.filter_append, hnil, List.filter_cons, hashedB_mkLink]
    · rw [injectCss_eq_reuse hh]
      have := filter_dropExtraHashed_false (step2 (step1 d.links))
      simp only [this]
      have hlen := List.length_take 1 ((step2 (step1 d.links)).filter hashedB)
      omega
  · intro h
    obtain ⟨l, _, hfl, hgood⟩ := injectCss_establishes h
    intro a ha
    exact hgood.2.1 a ha

/-- C4 (witness): the amended invariant at a concrete document holding a
stale fallback link and a stale hashed link, with the proviso discharged. -/
theorem injectCss_link_invariant_amended_witness :
    (((injectCss (⟨[⟨0, "qore.css", false⟩, ⟨1, "core.123.min.css", false⟩],
        "", 9⟩ : Doc)).1.links.filter hashedB).length ≤ 1) ∧
    substrOf "qore.css"
      (basePathOf (⟨[⟨0, "qore.css", false⟩, ⟨1, "core.123.min.css", false⟩],
        "", 9⟩ : Doc).scriptSrc ++ cssFile) = false ∧
    (∀ l ∈ (injectCss (⟨[⟨0, "qore.css", false⟩, ⟨1, "core.123.min.css", false⟩],
        "", 9⟩ : Doc)).1.links, substrOf "qore.css" l.href = false) :=
  ⟨(injectCss_link_invariant_amended
      ⟨[⟨0, "qore.css", false⟩, ⟨1, "core.123.min.css", false⟩], "", 9⟩).1,
   by decide,
   (injectCss_link_invariant_amended
      ⟨[⟨0, "qore.css", false⟩, ⟨1, "core.123.min.css", false⟩], "", 9⟩).2 (by decide)⟩

/-- C10 (counterexample): the claim fails as stated.  A link whose filename
portion does not match the core family and whose href does not contain
`qore.css` but does contain the current hashed filename as a proper
substring (`precore.5c7df4d0.min.css`) is removed by the duplicate sweep
when it follows a genuine hashed link. -/
theorem injectCss_frame_pathological :
    coreRegexTest (fileOf (⟨1, "precore.5c7df4d0.min.css", false⟩ : Link).href) = false ∧
    substrOf "qore.css" (⟨1, "precore.5c7df4d0.min.css", false⟩ : Link).href = false ∧
    (⟨1, "precore.5c7df4d0.min.css", false⟩ : Link) ∈
      (⟨[⟨0, "core.5c7df4d0.min.css", false⟩, ⟨1, "precore.5c7df4d0.min.css", false⟩],
        "", 7⟩ : Doc).links ∧
    (⟨1, "precore.5c7df4d0.min.css", false⟩ : Link) ∉
      (injectCss (⟨[⟨0, "core.5c7df4d0.min.css", false⟩,
        ⟨1, "precore.5c7df4d0.min.css", false⟩], "", 7⟩ : Doc)).1.links := by
  decide

/-- C10 (amended): every link in the head whose filename portion does not
match the `core(.hexhash)?.min.css` family, whose href does not contain
`qore.css`, and whose href does not contain the current hashed filename as
a substring, is left present and unchanged by `injectCss`. -/
theorem injectCss_frame_amended (d : Doc) (l : Link) (hm : l ∈ d.links)
    (h1 : coreRegexTest (fileOf l.href) = false)
    (h2 : substrOf "qore.css" l.href = false)
    (h3 : substrOf cssFile l.href = false) :
    l ∈ (injectCss d).1.links := by
  have hs : staleB l = false := by simp [staleB, h1]
  have hm1 : l ∈ step1 d.links := List.mem_filter.mpr ⟨hm, by simp [hs]⟩
  have hm2 : l ∈ step2 (step1 d.links) := by
    refine List.mem_filter.mpr ⟨hm1, ?_⟩
    have hq : qoreB l = false := h2
    simp [hq]
  rcases hh : ((step2 (step1 d.links)).filter hashedB).head? with _ | a
  · rw [injectCss_eq_create hh]
    exact List.mem_append_left _ hm2
  · rw [injectCss_eq_reuse hh]
    exact mem_dropExtraHashed_of_not_hashed hm2 h3 false

/-- C10 (witness): an unrelated stylesheet link survives a concrete
injection run. -/
theorem injectCss_frame_amended_witness :
    ((⟨3, "styles/other.css", false⟩ : Link) ∈
        (⟨[⟨3, "styles/other.css", false⟩], "", 0⟩ : Doc).links ∧
      coreRegexTest (fileOf (⟨3, "styles/other.css", false⟩ : Link).href) = false ∧
      substrOf "qore.css" (⟨3, "styles/other.css", false⟩ : Link).href = false ∧
      substrOf cssFile (⟨3, "styles/other.css", false⟩ : Link).href = false) ∧
    (⟨3, "styles/other.css", false⟩ : Link) ∈
      (injectCss (⟨[⟨3, "styles/other.css", false⟩], "", 0⟩ : Doc)).1.links :=
  ⟨by decide, injectCss_frame_amended ⟨[⟨3, "styles/other.css", false⟩], "", 0⟩
    ⟨3, "styles/other.css", false⟩ (by decide) (by decide) (by decide) (by decide)⟩

/-- C5 (confirmed): for every document state and every exception raised at
any stage inside the injection sequence, the catch-all of `injectCss`
absorbs the exception and the call returns normally (with the partially
mutated document and no link), never propagating to the caller. -/
theorem injectCss_never_raises (oracle : Nat → Option String) (d : Doc) :
    isOkB (injectCssSafe oracle d) = true := by
  unfold injectCssSafe
  rcases h : injectCssB oracle d with p | p
  · cases p
    rfl
  · cases p
    rfl

/-- C6 (confirmed): the link created by `injectCss` carries the failure
handler; its first invocation rewrites the href to the plain fallback
filename and detaches the handler; invoking the stored handler again right
after leaves the link unchanged, and once detached a further dispatched
load failure mutates nothing, whatever the href has become. -/
theorem onerror_one_shot (s : String) (i : Nat) (x : String) :
    (injectCss (⟨[], s, i⟩ : Doc)).2 = some (mkLink (basePathOf s) i) ∧
    (mkLink (basePathOf s) i).onerror = true ∧
    (onerrorHandler (basePathOf s) (mkLink (basePathOf s) i)).href =
      basePathOf s ++ "qore.css" ∧
    (onerrorHandler (basePathOf s) (mkLink (basePathOf s) i)).onerror = false ∧
    onerrorHandler (basePathOf s) (onerrorHandler (basePathOf s) (mkLink (basePathOf s) i)) =
      onerrorHandler (basePathOf s) (mkLink (basePathOf s) i) ∧
    fireError (basePathOf s)
        { onerrorHandler (basePathOf s) (mkLink (basePathOf s) i) with href := x } =
      { onerrorHandler (basePathOf s) (mkLink (basePathOf s) i) with href := x } :=
  ⟨rfl, rfl, rfl, rfl, rfl, rfl⟩

/-- C8 (confirmed): when the native resolver is unavailable or fails,
`safeResolve` throws exactly when an existence-check capability is
available and the computed fallback path does not exist, and the error
message names the computed path; with no filesystem capability it returns
the computed path without throwing. -/
theorem safeResolve_fallback_spec (env : ResolveEnv) (file : String)
    (hrr : (match env.requireResolve with
      | some rr => rr file
      | none => none) = (none : Option String)) :
    (env.existsSync = none →
      safeResolve env file = .ok (env.pathResolve (env.dirname.getD "") file)) ∧
    (∀ ex, env.existsSync = some ex →
      (ex (env.pathResolve (env.dirname.getD "") file) = true →
        safeResolve env file = .ok (env.pathResolve (env.dirname.getD "") file)) ∧
      (ex (env.pathResolve (env.dirname.getD "") file) = false →
        safeResolve env file =
          .error ("file not found: " ++ env.pathResolve (env.dirname.getD "") file))) := by
  constructor
  · intro hnone
    simp [safeResolve, hrr, hnone]
  · intro ex hex
    constructor <;> intro hx <;> simp [safeResolve, hrr, hex, hx]

/-- C8 (witness): in an environment with no resolver, the path shim and an
always-failing existence check, resolution of a missing file throws the
error naming the computed path. -/
theorem safeResolve_fallback_spec_witness :
    ((match (⟨none, fallbackPathResolve, none, some (fun _ => false)⟩ : ResolveEnv).requireResolve with
        | some rr => rr "./missing.css"
        | none => none) = (none : Option String)) ∧
    safeResolve (⟨none, fallbackPathResolve, none, some (fun _ => false)⟩ : ResolveEnv)
      "./missing.css" = .error ("file not found: " ++ "./missing.css") :=
  ⟨rfl, ((safeResolve_fallback_spec ⟨none, fallbackPathResolve, none, some (fun _ => false)⟩
    "./missing.css" rfl).2 (fun _ => false) rfl).2 rfl⟩

/-- C9 (confirmed): with no `require` available (so the path shim is
installed, no fs module is loaded and the native resolver is absent) and
`__dirname` undefined, `safeResolve` joins the file against an empty base
and returns the relative file path unchanged. -/
theorem safeResolve_no_require_no_dirname (nodePath : Option (String → String → String))
    (nodeFs : Option (String → Bool)) (rrf : Option (String → Option String))
    (file : String) :
    safeResolve (loadEnv false nodePath nodeFs rrf none) file = .ok file := by
  simp [safeResolve, loadEnv, fallbackPathResolve]

/-- Cons step of lookup at a key known to miss the head. -/
theorem lookup_cons_ne {k a b : String} {l : FS} (h : (k == a) = false) :
    List.lookup k ((a, b) :: l) = List.lookup k l := by
  rw [List.lookup_cons, h]

/-- Cons step of the deletion filter. -/
theorem eraseFS_cons {a b n : String} {ps : FS} :
    eraseFS ((a, b) :: ps) n =
      if (a != n) = true then (a, b) :: eraseFS ps n else eraseFS ps n := by
  simp only [eraseFS, List.filter_cons]

/-- Deleting one file leaves every other name's lookup unchanged. -/
theorem lookup_eraseFS_ne {fs : FS} {k n : String} (h : k ≠ n) :
    List.lookup k (eraseFS fs n) = List.lookup k fs := by
  induction fs with
  | nil => rfl
  | cons p ps ih =>
    obtain ⟨a, b⟩ := p
    rw [eraseFS_cons]
    by_cases han : a = n
    · have h2 : (k == a) = false := beq_eq_false_iff_ne.mpr (han ▸ h)
      rw [if_neg (by simp [han]), ih, lookup_cons_ne h2]
    · rw [if_pos (bne_iff_ne.mpr han)]
      by_cases hak : k = a
      · subst hak
        rw [List.lookup_cons_self, List.lookup_cons_self]
      · have h2 : (k == a) = false := beq_eq_false_iff_ne.mpr hak
        rw [lookup_cons_ne h2, lookup_cons_ne h2, ih]

/-- Replacing the value at `k` in place is found by a lookup of `k`. -/
theorem lookup_map_replace_self {k v : String} :
    ∀ fs : FS, (List.lookup k fs).isSome →
      List.lookup k (fs.map (fun p => if p.1 == k then (k, v) else p)) = some v := by
  intro fs
  induction fs with
  | nil => intro h; simp at h
  | cons p ps ih =>
    intro h
    obtain ⟨a, b⟩ := p
    rw [List.map_cons]
    by_cases hak : a = k
    · rw [if_pos (beq_iff_eq.mpr hak : ((a, b).1 == k) = true), List.lookup_cons_self]
    · have h2 : ((a, b).1 == k) = false := beq_eq_false_iff_ne.mpr hak
      have h3 : (k == a) = false := beq_eq_false_iff_ne.mpr (Ne.symm hak)
      rw [if_neg (by simp [h2]), lookup_cons_ne h3]
      apply ih
      rw [lookup_cons_ne h3] at h
      exact h

/-- The in-place replacement map leaves other keys' lookups unchanged. -/
theorem lookup_map_replace_ne {k k' v : String} (h : k' ≠ k) :
    ∀ fs : FS, List.lookup k' (fs.map (fun p => if p.1 == k then (k, v) else p)) =
      List.lookup k' fs := by
  intro fs
  induction fs with
  | nil => rfl
  | cons p ps ih =>
    obtain ⟨a, b⟩ := p
    rw [List.map_cons]
    by_cases hak : a = k
    · have h2 : (k' == a) = false := beq_eq_false_iff_ne.mpr (hak ▸ h)
      have h2' : (k' == k) = false := beq_eq_false_iff_ne.mpr h
      rw [if_pos (beq_iff_eq.mpr hak : ((a, b).1 == k) = true),
        lookup_cons_ne h2', lookup_cons_ne h2, ih]
    · have h2 : ((a, b).1 == k) = false := beq_eq_false_iff_ne.mpr hak
      rw [if_neg (by simp [h2])]
      by_cases hk' : k' = a
      · subst hk'
        rw [List.lookup_cons_self, List.lookup_cons_self]
      · have h3 : (k' == a) = false := beq_eq_false_iff_ne.mpr hk'
        rw [lookup_cons_ne h3, lookup_cons_ne h3, ih]

/-- A write is found by a lookup of the written name. -/
theorem lookup_setFS_self {fs : FS} {k v : String} :
    List.lookup k (setFS fs k v) = some v := by
  unfold setFS
  by_cases hp : (List.lookup k fs).isSome
  · simp only [hp, if_true]
    exact lookup_map_replace_self fs hp
  · simp only [hp, if_false]
    have hnone : List.lookup k fs = none := Option.not_isSome_iff_eq_none.mp hp
    simp [List.lookup_append, hnone]

/-- A write leaves every other name's lookup unchanged. -/
theorem lookup_setFS_ne {fs : FS} {k k' v : String} (h : k' ≠ k) :
    List.lookup k' (setFS fs k v) = List.lookup k' fs := by
  unfold setFS
  by_cases hp : (List.lookup k fs).isSome
  · simp only [hp, if_true]
    exact lookup_map_replace_ne h fs
  · simp only [hp, if_false]
    have h2 : (k' == k) = false := beq_eq_false_iff_ne.mpr h
    cases hl : List.lookup k' fs with
    | none => simp [List.lookup_append, hl, List.lookup_cons, h2]
    | some b => simp [List.lookup_append, hl]

/-- The names after a write: unchanged for an overwrite, the written name
appended for a creation. -/
theorem names_setFS {fs : FS} {k v : String} :
    namesOf (setFS fs k v) =
      if (List.lookup k fs).isSome then namesOf fs else namesOf fs ++ [k] := by
  unfold setFS namesOf
  by_cases hp : (List.lookup k fs).isSome
  · simp only [hp, if_true, List.map_map]
    refine List.map_congr_left ?_
    intro p _
    by_cases hpk : p.1 = k
    · simp [hpk]
    · simp [hpk, beq_eq_false_iff_ne.mpr hpk]
  · simp [hp]

/-- Names after a write come from the old names or are the written name. -/
theorem mem_names_setFS {fs : FS} {k v n : String}
    (h : n ∈ namesOf (setFS fs k v)) : n ∈ namesOf fs ∨ n = k := by
  rw [names_setFS] at h
  by_cases hp : (List.lookup k fs).isSome
  · rw [if_pos hp] at h
    exact Or.inl h
  · rw [if_neg hp] at h
    rcases List.mem_append.mp h with h | h
    · exact Or.inl h
    · exact Or.inr (by simpa using h)

/-- An absent name is not among the names. -/
theorem not_mem_names_of_lookup_none {fs : FS} {k : String}
    (h : List.lookup k fs = none) : k ∉ namesOf fs := by
  intro hmem
  rcases List.mem_map.mp hmem with ⟨p, hp, hpk⟩
  have := List.lookup_eq_none_iff.mp h p hp
  rw [hpk] at this
  simp at this

/-- A present name is among the names. -/
theorem mem_names_of_lookup_isSome {fs : FS} {k : String}
    (h : (List.lookup k fs).isSome) : k ∈ namesOf fs := by
  rcases List.lookup_isSome_iff.mp h with ⟨p, hp, hk⟩
  have : k = p.1 := eq_of_beq hk
  rw [this]
  exact List.mem_map_of_mem Prod.fst hp

/-- Writes preserve freedom from duplicate names. -/
theorem nodup_names_setFS {fs : FS} {k v : String}
    (h : (namesOf fs).Nodup) : (namesOf (setFS fs k v)).Nodup := by
  rw [names_setFS]
  by_cases hp : (List.lookup k fs).isSome
  · rw [if_pos hp]
    exact h
  · rw [if_neg hp]
    have hk : k ∉ namesOf fs :=
      not_mem_names_of_lookup_none (Option.not_isSome_iff_eq_none.mp hp)
    refine List.nodup_append.mpr ⟨h, List.nodup_singleton k, ?_⟩
    intro a ha hb
    rw [List.mem_singleton.mp hb] at ha
    exact hk ha

/-- After a write on a duplicate-free directory, the written name occurs
exactly once. -/
theorem count_names_setFS_self {fs : FS} {k v : String}
    (h : (namesOf fs).Nodup) : (namesOf (setFS fs k v)).count k = 1 := by
  rw [names_setFS]
  by_cases hp : (List.lookup k fs).isSome
  · rw [if_pos hp]
    exact List.count_eq_one_of_mem h (mem_names_of_lookup_isSome hp)
  · rw [if_neg hp]
    have hk : k ∉ namesOf fs :=
      not_mem_names_of_lookup_none (Option.not_isSome_iff_eq_none.mp hp)
    simp [List.count_append, List.count_eq_zero.mpr hk]

/-- A write does not change how often any other name occurs. -/
theorem count_names_setFS_ne {fs : FS} {k k' v : String} (h : k' ≠ k) :
    (namesOf (setFS fs k v)).count k' = (namesOf fs).count k' := by
  rw [names_setFS]
  by_cases hp : (List.lookup k fs).isSome
  · rw [if_pos hp]
  · rw [if_neg hp]
    have : k' ∉ [k] := by simp [h]
    simp [List.count_append, List.count_eq_zero.mpr this]

/-- With an always-succeeding unlink, the cleanup folds deletions over the
listed names. -/
theorem deleteStale_honest : ∀ (ns : List String) (fs : FS),
    deleteStale (fun _ => UnlinkRes.ok) ns fs = .ok (ns.foldl eraseFS fs) := by
  intro ns
  induction ns with
  | nil => intro fs; rfl
  | cons n rest ih => intro fs; simpa [deleteStale] using ih (eraseFS fs n)

/-- Folding deletions over a name list filters the directory by those
names. -/
theorem foldl_erase_eq_filter : ∀ (ns : List String) (fs : FS),
    ns.foldl eraseFS fs = fs.filter (fun p => !(ns.contains p.1)) := by
  intro ns
  induction ns with
  | nil =>
    intro fs
    exact (List.filter_eq_self.mpr (fun a _ => rfl)).symm
  | cons n rest ih =>
    intro fs
    have hstep : (n :: rest).foldl eraseFS fs = rest.foldl eraseFS (eraseFS fs n) := rfl
    rw [hstep, ih, eraseFS, List.filter_filter]
    refine List.filter_congr ?_
    intro p _
    rw [List.contains_cons, Bool.not_or]
    exact Bool.and_comm _ _

/-- Filtering by a predicate on names commutes with taking names. -/
theorem names_filter (q : String → Bool) : ∀ fs : FS,
    namesOf (fs.filter (fun p => q p.1)) = (namesOf fs).filter q := by
  intro fs
  induction fs with
  | nil => rfl
  | cons p ps ih =>
    cases hq : q p.1 <;> simp [namesOf, List.filter_cons, hq] <;>
      simpa [namesOf] using ih

/-- Filtering entries whose predicate keeps every entry of name `k` leaves
the lookup of `k` unchanged. -/
theorem lookup_filter_keep {k : String} (q : String × String → Bool)
    (hk : ∀ v, q (k, v) = true) : ∀ fs : FS,
    List.lookup k (fs.filter q) = List.lookup k fs := by
  intro fs
  induction fs with
  | nil => rfl
  | cons p ps ih =>
    obtain ⟨a, b⟩ := p
    by_cases hak : k = a
    · subst hak
      simp [List.filter_cons, hk b, List.lookup_cons]
    · have h2 : (k == a) = false := beq_eq_false_iff_ne.mpr hak
      cases hq : q (a, b) <;> simp [List.filter_cons, hq, List.lookup_cons, h2, ih]

/-- A cleanup that succeeds leaves the lookup of every unscheduled name
unchanged. -/
theorem deleteStale_lookup {ul : String → UnlinkRes} :
    ∀ {ns : List String} {fs fs' : FS}, deleteStale ul ns fs = .ok fs' →
      ∀ k, k ∉ ns → List.lookup k fs' = List.lookup k fs := by
  intro ns
  induction ns with
  | nil =>
    intro fs fs' h k _
    have : fs = fs' := by simpa [deleteStale] using h
    rw [this]
  | cons n rest ih =>
    intro fs fs' h k hk
    have hkn : k ≠ n := fun he => hk (he ▸ List.mem_cons_self n rest)
    have hkr : k ∉ rest := fun hm => hk (List.mem_cons_of_mem n hm)
    cases hul : ul n with
    | ok =>
      rw [deleteStale, hul] at h
      rw [ih h k hkr, lookup_eraseFS_ne hkn]
    | enoent =>
      rw [deleteStale, hul] at h
      exact ih h k hkr
    | fail m =>
      rw [deleteStale, hul] at h
      cases h

/-- A cleanup scheduled over benign unlink outcomes always succeeds. -/
theorem deleteStale_benign {ul : String → UnlinkRes}
    (hul : ∀ n, ul n = .ok ∨ ul n = .enoent) :
    ∀ (ns : List String) (fs : FS), ∃ fs', deleteStale ul ns fs = .ok fs' := by
  intro ns
  induction ns with
  | nil => intro fs; exact ⟨fs, rfl⟩
  | cons n rest ih =>
    intro fs
    rcases hul n with h | h
    · obtain ⟨fs', hfs'⟩ := ih (eraseFS fs n)
      exact ⟨fs', by rw [deleteStale, h]; exact hfs'⟩
    · obtain ⟨fs', hfs'⟩ := ih fs
      exact ⟨fs', by rw [deleteStale, h]; exact hfs'⟩

/-- A cleanup over a schedule containing a non-`ENOENT` failure aborts with
an error. -/
theorem deleteStale_fail {ul : String → UnlinkRes} :
    ∀ {ns : List String} (fs : FS), (∃ n ∈ ns, ∃ m, ul n = .fail m) →
      ∃ e, deleteStale ul ns fs = .error e := by
  intro ns
  induction ns with
  | nil =>
    intro fs h
    simp at h
  | cons n rest ih =>
    intro fs h
    rcases h with ⟨n', hn', m, hm⟩
    rcases List.mem_cons.mp hn' with rfl | htail
    · exact ⟨m, by rw [deleteStale, hm]⟩
    · cases hul : ul n with
      | ok =>
        obtain ⟨e, he⟩ := ih (eraseFS fs n) ⟨n', htail, m, hm⟩
        exact ⟨e, by rw [deleteStale, hul]; exact he⟩
      | enoent =>
        obtain ⟨e, he⟩ := ih fs ⟨n', htail, m, hm⟩
        exact ⟨e, by rw [deleteStale, hul]; exact he⟩
      | fail e => exact ⟨e, by rw [deleteStale, hul]⟩

/-- The hashed artifact name decomposes into its three literal parts. -/
theorem targetOf_data (h : String) :
    (targetOf h).data = ("core.".data ++ h.data) ++ ".min.css".data := rfl

/-- Components of an 8-hex hash string. -/
theorem is8_length {h : String} (H : is8HexStr h = true) : h.data.length = 8 := by
  have := (Bool.and_eq_true _ _).mp H
  exact of_decide_eq_true this.1

/-- An 8-hex hash string is all lowercase hex. -/
theorem is8_hex {h : String} (H : is8HexStr h = true) : h.data.all hexLower = true :=
  ((Bool.and_eq_true _ _).mp H).2

/-- Length of the hashed artifact name. -/
theorem targetOf_length {h : String} (H : is8HexStr h = true) :
    (targetOf h).data.length = 21 := by
  rw [targetOf_data]
  simp [List.length_append, is8_length H,
    (show "core.".data.length = 5 from rfl), (show ".min.css".data.length = 8 from rfl)]

/-- Strings differing in their first character differ. -/
theorem ne_of_head_ne {s t : String} (h : s.data.head? ≠ t.data.head?) : s ≠ t :=
  fun he => h (he ▸ rfl)

/-- The hashed artifact name starts with `c`. -/
theorem head_targetOf (h : String) : (targetOf h).data.head? = some 'c' := rfl

/-- The gzip variant name starts with `c`. -/
theorem head_targetOf_gz (h : String) : (targetOf h ++ ".gz").data.head? = some 'c' := rfl

/-- The brotli variant name starts with `c`. -/
theorem head_targetOf_br (h : String) : (targetOf h ++ ".br").data.head? = some 'c' := rfl

/-- Appending a nonempty extension changes a name. -/
theorem ne_append_nonempty {s t : String} (ht : t.data ≠ []) : s ≠ s ++ t := by
  intro he
  have hd : s.data = s.data ++ t.data := by
    have := congrArg String.data he
    simpa using this
  exact ht (List.self_eq_append_right.mp hd)

/-- Appending different extensions yields different names. -/
theorem append_ne_append {s a b : String} (h : a.data ≠ b.data) : s ++ a ≠ s ++ b := by
  intro he
  have hd : s.data ++ a.data = s.data ++ b.data := by
    have := congrArg String.data he
    simpa using this
  exact h (List.append_cancel_left hd)

/-- The hashed artifact name matches the core-family regex. -/
theorem coreRegexTest_targetOf {h : String} (H : is8HexStr h = true) :
    coreRegexTest (targetOf h) = true := by
  have hlen : h.data.length = 8 := is8_length H
  have h13 : ("core.".data ++ h.data).length = 13 := by
    simp [List.length_append, hlen, (show "core.".data.length = 5 from rfl)]
  have hassoc : (targetOf h).data = "core.".data ++ (h.data ++ ".min.css".data) := by
    rw [targetOf_data, List.append_assoc]
  have hc2 : (targetOf h).data.take 5 = "core.".data := by
    rw [hassoc]
    exact List.take_left' rfl
  have hc3 : (targetOf h).data.drop 13 = ".min.css".data := by
    rw [targetOf_data]
    exact List.drop_left' h13
  have hc4 : ((targetOf h).data.drop 5).take 8 = h.data := by
    rw [hassoc, List.drop_left' (show "core.".data.length = 5 from rfl)]
    exact List.take_left' hlen
  simp only [coreRegexTest, targetOf_length H]
  rw [(show (21 : Nat) - 8 = 13 from rfl), (show (21 : Nat) - 13 = 8 from rfl)]
  rw [hc2, hc3, hc4]
  simp [is8_hex H]

/-- The hashed artifact name carries no compressed-variant extension. -/
theorem stripComp_targetOf {h : String} (H : is8HexStr h = true) :
    stripComp (targetOf h) = targetOf h := by
  have h13 : ("core.".data ++ h.data).length = 13 := by
    simp [List.length_append, is8_length H, (show "core.".data.length = 5 from rfl)]
  have hdrop : (targetOf h).data.drop 18 = ['c', 's', 's'] := by
    rw [(show (18 : Nat) = 13 + 5 from rfl), ← List.drop_drop, targetOf_data,
      List.drop_left' h13]
    rfl
  have hgz : endsWithStr ".gz" (targetOf h) = false := by
    simp only [endsWithStr, targetOf_length H]
    rw [(show (21 : Nat) - ".gz".data.length = 18 from rfl), hdrop]
    decide
  have hbr : endsWithStr ".br" (targetOf h) = false := by
    simp only [endsWithStr, targetOf_length H]
    rw [(show (21 : Nat) - ".br".data.length = 18 from rfl), hdrop]
    decide
  simp [stripComp, hgz, hbr]

/-- Stripping the gzip variant extension recovers the artifact name. -/
theorem stripComp_targetOf_gz {h : String} (H : is8HexStr h = true) :
    stripComp (targetOf h ++ ".gz") = targetOf h := by
  have h24 : (targetOf h ++ ".gz").data.length = 24 := by
    simp [List.length_append, targetOf_length H, (show ".gz".data.length = 3 from rfl)]
  have hdata : (targetOf h ++ ".gz").data = (targetOf h).data ++ ".gz".data := by simp
  have hgz : endsWithStr ".gz" (targetOf h ++ ".gz") = true := by
    simp only [endsWithStr, h24]
    rw [(show (24 : Nat) - ".gz".data.length = 21 from rfl), hdata,
      List.drop_left' (targetOf_length H)]
    simp
  have htake : (targetOf h ++ ".gz").data.take 21 = (targetOf h).data := by
    rw [hdata]
    exact List.take_left' (targetOf_length H)
  simp only [stripComp, hgz, if_true, h24]
  rw [(show (24 : Nat) - 3 = 21 from rfl), htake]

/-- Stripping the brotli variant extension recovers the artifact name. -/
theorem stripComp_targetOf_br {h : String} (H : is8HexStr h = true) :
    stripComp (targetOf h ++ ".br") = targetOf h := by
  have h24 : (targetOf h ++ ".br").data.length = 24 := by
    simp [List.length_append, targetOf_length H, (show ".br".data.length = 3 from rfl)]
  have hdata : (targetOf h ++ ".br").data = (targetOf h).data ++ ".br".data := by simp
  have hdrop : (targetOf h ++ ".br").data.drop 21 = ".br".data := by
    rw [hdata]
    exact List.drop_left' (targetOf_length H)
  have hgz : endsWithStr ".gz" (targetOf h ++ ".br") = false := by
    simp only [endsWithStr, h24]
    rw [(show (24 : Nat) - ".gz".data.length = 21 from rfl), hdrop]
    decide
  have hbr : endsWithStr ".br" (targetOf h ++ ".br") = true := by
    simp only [endsWithStr, h24]
    rw [(show (24 : Nat) - ".br".data.length = 21 from rfl), hdrop]
    simp
  have htake : (targetOf h ++ ".br").data.take 21 = (targetOf h).data := by
    rw [hdata]
    exact List.take_left' (targetOf_length H)
  simp only [stripComp, hgz, if_false, hbr, if_true, h24]
  rw [(show (24 : Nat) - 3 = 21 from rfl), htake]
  rfl

/-- The target and its compressed variants are not stale. -/
theorem isStale_target_self (target : String) :
    isStaleArtifact target target = false := by
  simp [isStaleArtifact]

/-- The gzip variant of the target is not stale. -/
theorem isStale_target_gz (target : String) :
    isStaleArtifact target (target ++ ".gz") = false := by
  simp [isStaleArtifact]

/-- The brotli variant of the target is not stale. -/
theorem isStale_target_br (target : String) :
    isStaleArtifact target (target ++ ".br") = false := by
  simp [isStaleArtifact]

/-- The literal matcher accepts the hashed artifact name at the front and
returns the remainder. -/
theorem matchLit_targetOf {h : String} (H : is8HexStr h = true) (rest : List Char) :
    matchLit ((targetOf h).data ++ rest) = some rest := by
  have hlen := is8_length H
  have hl : (targetOf h).data ++ rest =
      "core.".data ++ (h.data ++ (".min.css".data ++ rest)) := by
    rw [targetOf_data]
    simp [List.append_assoc]
  have hpre : "core.".data.isPrefixOf ((targetOf h).data ++ rest) = true := by
    rw [hl]
    exact List.isPrefixOf_iff_prefix.mpr ⟨_, rfl⟩
  have hr : ((targetOf h).data ++ rest).drop 5 = h.data ++ (".min.css".data ++ rest) := by
    rw [hl]
    exact List.drop_left' rfl
  have ht8 : (((targetOf h).data ++ rest).drop 5).take 8 = h.data := by
    rw [hr]
    exact List.take_left' hlen
  have hd8 : (((targetOf h).data ++ rest).drop 5).drop 8 = ".min.css".data ++ rest := by
    rw [hr]
    exact List.drop_left' hlen
  have hpre2 :
      ".min.css".data.isPrefixOf ((((targetOf h).data ++ rest).drop 5).drop 8) = true := by
    rw [hd8]
    exact List.isPrefixOf_iff_prefix.mpr ⟨_, rfl⟩
  have hd16 : (((targetOf h).data ++ rest).drop 5).drop 16 = rest := by
    rw [(show (16 : Nat) = 8 + 8 from rfl), ← List.drop_drop, hd8]
    exact List.drop_left' rfl
  have hp13 : ".min.css".data <+: List.drop 13 ((targetOf h).data ++ rest) := by
    have h13 : List.drop 13 ((targetOf h).data ++ rest) = ".min.css".data ++ rest := by
      rw [(show (13 : Nat) = 5 + 8 from rfl), ← List.drop_drop, hr]
      exact List.drop_left' hlen
    rw [h13]
    exact List.prefix_append _ _
  simp only [matchLit]
  rw [if_pos hpre]
  simp [ht8, hd16, hpre2, hlen, is8_hex H, hp13]

/-- A replacement scan that found a literal leaves the target embedded in
its output. -/
theorem replFamAux_found {t : List Char} : ∀ (fuel : Nat) (l : List Char),
    (replFamAux t fuel l).2 = true →
      ∃ x y, (replFamAux t fuel l).1 = x ++ (t ++ y) := by
  intro fuel
  induction fuel with
  | zero =>
    intro l h
    cases l <;> simp [replFamAux] at h
  | succ fuel ih =>
    intro l h
    cases l with
    | nil => simp [replFamAux] at h
    | cons c cs =>
      cases hm : matchLit (c :: cs) with
      | some rest =>
        refine ⟨[], (replFamAux t fuel rest).1, ?_⟩
        simp [replFamAux, hm]
      | none =>
        have h2 : (replFamAux t fuel cs).2 = true := by
          simpa [replFamAux, hm] using h
        obtain ⟨x, y, hxy⟩ := ih cs h2
        refine ⟨c :: x, y, ?_⟩
        simp [replFamAux, hm, hxy]

/-- The replacement scan's found-flag agrees with the literal scan. -/
theorem replFamAux_flag (t : List Char) : ∀ (fuel : Nat) (l : List Char),
    (replFamAux t fuel l).2 = containsLitAux fuel l := by
  intro fuel
  induction fuel with
  | zero => intro l; cases l <;> rfl
  | succ fuel ih =>
    intro l
    cases l with
    | nil => rfl
    | cons c cs =>
      cases hm : matchLit (c :: cs) with
      | some rest => simp [replFamAux, containsLitAux, hm]
      | none => simp [replFamAux, containsLitAux, hm, ih cs]

/-- A list containing the hashed artifact name as a substring is seen by the
literal scan, given enough fuel. -/
theorem containsLitAux_of_sub {h : String} (H : is8HexStr h = true) :
    ∀ (fuel : Nat) (l : List Char), l.length ≤ fuel →
      (∃ x y, l = x ++ ((targetOf h).data ++ y)) → containsLitAux fuel l = true := by
  intro fuel
  induction fuel with
  | zero =>
    intro l hl hxy
    obtain ⟨x, y, hxy⟩ := hxy
    have hnil : l = [] := List.eq_nil_of_length_eq_zero (Nat.le_zero.mp hl)
    rw [hnil] at hxy
    rcases List.append_eq_nil.mp hxy.symm with ⟨_, h2⟩
    rcases List.append_eq_nil.mp h2 with ⟨h3, _⟩
    have := head_targetOf h
    rw [h3] at this
    cases this
  | succ fuel ih =>
    intro l hl hxy
    obtain ⟨x, y, hxy⟩ := hxy
    cases x with
    | nil =>
      obtain ⟨ys, hT⟩ := List.head?_eq_some_iff.mp (head_targetOf h)
      have hcons : l = 'c' :: (ys ++ y) := by
        rw [hxy, List.nil_append, hT, List.cons_append]
      rw [hcons, containsLitAux]
      have hml : matchLit ('c' :: (ys ++ y)) = some y := by
        rw [← List.cons_append, ← hT]
        exact matchLit_targetOf H y
      simp [hml]
    | cons a x' =>
      have hcons : l = a :: (x' ++ ((targetOf h).data ++ y)) := by
        rw [hxy, List.cons_append]
      rw [hcons, containsLitAux]
      have hlen2 : (x' ++ ((targetOf h).data ++ y)).length ≤ fuel := by
        rw [hcons] at hl
        simpa using hl
      rw [ih (x' ++ ((targetOf h).data ++ y)) hlen2 ⟨x', y, rfl⟩]
      simp

/-- Patching a source that contained a literal leaves a literal for the
next patch to find. -/
theorem containsLit_replFam {h : String} (H : is8HexStr h = true) {s : String}
    (hs : containsLit s = true) : containsLit (replFam (targetOf h) s).1 = true := by
  have hflag : (replFamAux (targetOf h).data s.data.length s.data).2 = true := by
    rw [replFamAux_flag]
    exact hs
  obtain ⟨x, y, hxy⟩ := replFamAux_found s.data.length s.data hflag
  have hdata : (replFam (targetOf h) s).1.data =
      (replFamAux (targetOf h).data s.data.length s.data).1 := rfl
  show containsLitAux (replFam (targetOf h) s).1.data.length
    (replFam (targetOf h) s).1.data = true
  rw [hdata, hxy]
  exact containsLitAux_of_sub H _ _ (Nat.le_refl _) ⟨x, y, rfl⟩

/-- The found-flag of a patch run is the literal scan of its input. -/
theorem replFam_flag (target s : String) :
    (replFam target s).2 = containsLit s := by
  show (replFamAux target.data s.data.length s.data).2 = containsLit s
  rw [replFamAux_flag]
  rfl

/-- A name that is not of the core family is never scheduled stale. -/
theorem isStale_nonfam {target n : String}
    (hn : coreRegexTest (stripComp n) = false) :
    isStaleArtifact target n = false := by
  simp [isStaleArtifact, hn]

/-- `qore.css` is never scheduled for deletion. -/
theorem qore_not_stale (target : String) : isStaleArtifact target "qore.css" = false :=
  isStale_nonfam (by decide)

/-- `index.js` is never scheduled for deletion. -/
theorem index_not_stale (target : String) : isStaleArtifact target "index.js" = false :=
  isStale_nonfam (by decide)

/-- With a benign unlink primitive the modelled build runs to completion,
returning the hash of the processed source and the directory produced by
the cleanup followed by the write phase. -/
theorem buildM_shape (hashF procF gzF brF : String → String)
    (ul : String → UnlinkRes) (fs : FS) (src txt : String)
    (hul : ∀ n, ul n = UnlinkRes.ok ∨ ul n = UnlinkRes.enoent)
    (Hsrc : List.lookup "qore.css" fs = some src)
    (Hidx : List.lookup "index.js" fs = some txt)
    (Hfound : containsLit txt = true) :
    ∃ fs1,
      deleteStale ul
        ((fs.map Prod.fst).filter (isStaleArtifact (targetOf (hashF (procF src))))) fs =
          .ok fs1 ∧
      buildM hashF procF gzF brF ul fs =
        .ok (hashF (procF src),
          writeArtifacts (hashF (procF src)) (procF src) (gzF (procF src))
            (brF (procF src)) (replFam (targetOf (hashF (procF src))) txt).1 fs1) := by
  obtain ⟨fs1, hfs1⟩ := deleteStale_benign hul
    ((fs.map Prod.fst).filter (isStaleArtifact (targetOf (hashF (procF src))))) fs
  refine ⟨fs1, hfs1, ?_⟩
  have hnotidx : "index.js" ∉
      (fs.map Prod.fst).filter (isStaleArtifact (targetOf (hashF (procF src)))) := by
    intro hmem
    have := (List.mem_filter.mp hmem).2
    rw [index_not_stale] at this
    cases this
  have hi1 : List.lookup "index.js" fs1 = some txt := by
    rw [deleteStale_lookup hfs1 "index.js" hnotidx, Hidx]
  have hneT : ("index.js" : String) ≠ targetOf (hashF (procF src)) :=
    ne_of_head_ne (by rw [head_targetOf]; decide)
  have hneB : ("index.js" : String) ≠ "build.hash" := by decide
  have hneG : ("index.js" : String) ≠ targetOf (hashF (procF src)) ++ ".gz" :=
    ne_of_head_ne (by rw [head_targetOf_gz]; decide)
  have hneR : ("index.js" : String) ≠ targetOf (hashF (procF src)) ++ ".br" :=
    ne_of_head_ne (by rw [head_targetOf_br]; decide)
  have hi5 : List.lookup "index.js"
      (setFS (setFS (setFS (setFS fs1 (targetOf (hashF (procF src))) (procF src))
        "build.hash" (hashF (procF src)))
        (targetOf (hashF (procF src)) ++ ".gz") (gzF (procF src)))
        (targetOf (hashF (procF src)) ++ ".br") (brF (procF src))) = some txt := by
    rw [lookup_setFS_ne hneR, lookup_setFS_ne hneG, lookup_setFS_ne hneB,
      lookup_setFS_ne hneT, hi1]
  have hflag : (replFam (targetOf (hashF (procF src))) txt).2 = true := by
    rw [replFam_flag]
    exact Hfound
  simp only [buildM, Hsrc, hfs1, hi5, hflag, if_true, writeArtifacts]

/-- The write phase leaves the artifact readable under its hashed name. -/
theorem lookup_writeArtifacts_target {h css gzc brc txt2 : String} {fs1 : FS} :
    List.lookup (targetOf h) (writeArtifacts h css gzc brc txt2 fs1) = some css := by
  have hneI : targetOf h ≠ "index.js" := ne_of_head_ne (by rw [head_targetOf]; decide)
  have hneR : targetOf h ≠ targetOf h ++ ".br" := ne_append_nonempty (by decide)
  have hneG : targetOf h ≠ targetOf h ++ ".gz" := ne_append_nonempty (by decide)
  have hneB : targetOf h ≠ "build.hash" := ne_of_head_ne (by rw [head_targetOf]; decide)
  unfold writeArtifacts
  rw [lookup_setFS_ne hneI, lookup_setFS_ne hneR, lookup_setFS_ne hneG,
    lookup_setFS_ne hneB, lookup_setFS_self]

/-- The write phase does not touch the source stylesheet. -/
theorem lookup_writeArtifacts_qore {h css gzc brc txt2 : String} {fs1 : FS} :
    List.lookup "qore.css" (writeArtifacts h css gzc brc txt2 fs1) =
      List.lookup "qore.css" fs1 := by
  have hneI : ("qore.css" : String) ≠ "index.js" := by decide
  have hneR : ("qore.css" : String) ≠ targetOf h ++ ".br" :=
    ne_of_head_ne (by rw [head_targetOf_br]; decide)
  have hneG : ("qore.css" : String) ≠ targetOf h ++ ".gz" :=
    ne_of_head_ne (by rw [head_targetOf_gz]; decide)
  have hneB : ("qore.css" : String) ≠ "build.hash" := by decide
  have hneT : ("qore.css" : String) ≠ targetOf h :=
    ne_of_head_ne (by rw [head_targetOf]; decide)
  unfold writeArtifacts
  rw [lookup_setFS_ne hneI, lookup_setFS_ne hneR, lookup_setFS_ne hneG,
    lookup_setFS_ne hneB, lookup_setFS_ne hneT]

/-- The write phase leaves the patched module entry in place. -/
theorem lookup_writeArtifacts_index {h css gzc brc txt2 : String} {fs1 : FS} :
    List.lookup "index.js" (writeArtifacts h css gzc brc txt2 fs1) = some txt2 := by
  unfold writeArtifacts
  rw [lookup_setFS_self]

/-- On a duplicate-free directory the write phase leaves the artifact and
its two compressed variants each exactly once, and no duplicate names. -/
theorem counts_writeArtifacts {h css gzc brc txt2 : String} {fs1 : FS}
    (Hnd : (namesOf fs1).Nodup) :
    (namesOf (writeArtifacts h css gzc brc txt2 fs1)).count (targetOf h) = 1 ∧
    (namesOf (writeArtifacts h css gzc brc txt2 fs1)).count (targetOf h ++ ".gz") = 1 ∧
    (namesOf (writeArtifacts h css gzc brc txt2 fs1)).count (targetOf h ++ ".br") = 1 ∧
    (namesOf (writeArtifacts h css gzc brc txt2 fs1)).Nodup := by
  have hnd2 : (namesOf (setFS fs1 (targetOf h) css)).Nodup := nodup_names_setFS Hnd
  have hnd3 : (namesOf (setFS (setFS fs1 (targetOf h) css) "build.hash" h)).Nodup :=
    nodup_names_setFS hnd2
  have hnd4 : (namesOf (setFS (setFS (setFS fs1 (targetOf h) css) "build.hash" h)
      (targetOf h ++ ".gz") gzc)).Nodup := nodup_names_setFS hnd3
  have hnd5 : (namesOf (setFS (setFS (setFS (setFS fs1 (targetOf h) css)
      "build.hash" h) (targetOf h ++ ".gz") gzc) (targetOf h ++ ".br") brc)).Nodup :=
    nodup_names_setFS hnd4
  have hnd6 : (namesOf (writeArtifacts h css gzc brc txt2 fs1)).Nodup :=
    nodup_names_setFS hnd5
  have hneTI : targetOf h ≠ "index.js" := ne_of_head_ne (by rw [head_targetOf]; decide)
  have hneTR : targetOf h ≠ targetOf h ++ ".br" := ne_append_nonempty (by decide)
  have hneTG : targetOf h ≠ targetOf h ++ ".gz" := ne_append_nonempty (by decide)
  have hneTB : targetOf h ≠ "build.hash" := ne_of_head_ne (by rw [head_targetOf]; decide)
  have hneGI : targetOf h ++ ".gz" ≠ "index.js" :=
    ne_of_head_ne (by rw [head_targetOf_gz]; decide)
  have hneGR : targetOf h ++ ".gz" ≠ targetOf h ++ ".br" := append_ne_append (by decide)
  have hneRI : targetOf h ++ ".br" ≠ "index.js" :=
    ne_of_head_ne (by rw [head_targetOf_br]; decide)
  refine ⟨?_, ?_, ?_, hnd6⟩
  · unfold writeArtifacts
    rw [count_names_setFS_ne hneTI, count_names_setFS_ne hneTR,
      count_names_setFS_ne hneTG, count_names_setFS_ne hneTB]
    exact count_names_setFS_self Hnd
  · unfold writeArtifacts
    rw [count_names_setFS_ne hneGI, count_names_setFS_ne hneGR]
    exact count_names_setFS_self hnd3
  · unfold writeArtifacts
    rw [count_names_setFS_ne hneRI]
    exact count_names_setFS_self hnd4

/-- Every core-family name present after the write phase either survived the
cleanup or is the artifact or one of its compressed variants. -/
theorem fam_writeArtifacts {h css gzc brc txt2 : String} {fs1 : FS} :
    ∀ n ∈ namesOf (writeArtifacts h css gzc brc txt2 fs1),
      coreRegexTest (stripComp n) = true →
        n ∈ namesOf fs1 ∨ n = targetOf h ∨ n = targetOf h ++ ".gz" ∨
          n = targetOf h ++ ".br" := by
  intro n hn hfam
  unfold writeArtifacts at hn
  rcases mem_names_setFS hn with hn | rfl
  · rcases mem_names_setFS hn with hn | rfl
    · rcases mem_names_setFS hn with hn | rfl
      · rcases mem_names_setFS hn with hn | rfl
        · rcases mem_names_setFS hn with hn | rfl
          · exact Or.inl hn
          · exact Or.inr (Or.inl rfl)
        · have : coreRegexTest (stripComp "build.hash") = false := by decide
          rw [this] at hfam
          cases hfam
      · exact Or.inr (Or.inr (Or.inl rfl))
    · exact Or.inr (Or.inr (Or.inr rfl))
  · have : coreRegexTest (stripComp "index.js") = false := by decide
    rw [this] at hfam
    cases hfam

/-- An honest cleanup filters the directory down to the non-stale entries. -/
theorem deleteStale_honest_filter (target : String) (fs : FS) {fs1 : FS}
    (hdel : deleteStale (fun _ => UnlinkRes.ok)
      ((fs.map Prod.fst).filter (isStaleArtifact target)) fs = .ok fs1) :
    fs1 = fs.filter (fun p => !(isStaleArtifact target p.1)) := by
  have h2 := deleteStale_honest ((fs.map Prod.fst).filter (isStaleArtifact target)) fs
  rw [hdel] at h2
  have hval := Except.ok.inj h2
  rw [hval, foldl_erase_eq_filter]
  refine List.filter_congr ?_
  intro p hp
  have hmem : p.1 ∈ fs.map Prod.fst := List.mem_map_of_mem Prod.fst hp
  by_cases hst : isStaleArtifact target p.1 = true
  · have : p.1 ∈ (fs.map Prod.fst).filter (isStaleArtifact target) :=
      List.mem_filter.mpr ⟨hmem, hst⟩
    rw [hst, List.contains_iff_exists_mem_beq.mpr ⟨p.1, this, beq_self_eq_true p.1⟩]
  · have hst' : isStaleArtifact target p.1 = false := by
      cases hval2 : isStaleArtifact target p.1
      · rfl
      · exact absurd hval2 hst
    have : p.1 ∉ (fs.map Prod.fst).filter (isStaleArtifact target) := by
      intro hc
      rw [(List.mem_filter.mp hc).2] at hst'
      cases hst'
    have hcont : ((fs.map Prod.fst).filter (isStaleArtifact target)).contains p.1 = false := by
      cases hc : ((fs.map Prod.fst).filter (isStaleArtifact target)).contains p.1
      · rfl
      · rcases List.contains_iff_exists_mem_beq.mp hc with ⟨a, ha, hab⟩
        rw [eq_of_beq hab] at this
        exact absurd ha this
    rw [hst', hcont]

/-- A core-family name that is not stale is the target or one of its
compressed variants. -/
theorem famP_not_stale {target n : String}
    (hfam : coreRegexTest (stripComp n) = true)
    (hst : isStaleArtifact target n = false) :
    n = target ∨ n = target ++ ".gz" ∨ n = target ++ ".br" := by
  by_contra hc
  push_neg at hc
  obtain ⟨h1, h2, h3⟩ := hc
  simp [isStaleArtifact, hfam, bne_iff_ne.mpr h1, bne_iff_ne.mpr h2,
    bne_iff_ne.mpr h3] at hst

/-- C1 (confirmed, spec-modelled: `scripts/build.js` is not among the
provided sources): for every fixed source stylesheet, running the Build
Orchestrator twice in a row with unchanged input returns the same hash
string both times, and after the second invocation exactly one hashed
artifact (plus its gzip and brotli variants) exists in the output
directory. -/
theorem build_idempotent (hashF procF gzF brF : String → String) (fs : FS)
    (src txt : String)
    (Hnd : (namesOf fs).Nodup)
    (Hsrc : List.lookup "qore.css" fs = some src)
    (Hidx : List.lookup "index.js" fs = some txt)
    (Hfound : containsLit txt = true)
    (Hhash : is8HexStr (hashF (procF src)) = true) :
    ∃ fsA fsB, buildRun hashF procF gzF brF fs = .ok (hashF (procF src), fsA) ∧
      buildRun hashF procF gzF brF fsA = .ok (hashF (procF src), fsB) ∧
      (namesOf fsB).count (targetOf (hashF (procF src))) = 1 ∧
      (namesOf fsB).count (targetOf (hashF (procF src)) ++ ".gz") = 1 ∧
      (namesOf fsB).count (targetOf (hashF (procF src)) ++ ".br") = 1 ∧
      ∀ n ∈ namesOf fsB, coreRegexTest (stripComp n) = true →
        n = targetOf (hashF (procF src)) ∨
          n = targetOf (hashF (procF src)) ++ ".gz" ∨
          n = targetOf (hashF (procF src)) ++ ".br" := by
  simp only [buildRun]
  have hul : ∀ n : String, (fun _ : String => UnlinkRes.ok) n = UnlinkRes.ok ∨
      (fun _ : String => UnlinkRes.ok) n = UnlinkRes.enoent := fun _ => Or.inl rfl
  obtain ⟨fs1, hdel1, hb1⟩ :=
    buildM_shape hashF procF gzF brF (fun _ => UnlinkRes.ok) fs src txt hul Hsrc Hidx Hfound
  have hfil1 := deleteStale_honest_filter (targetOf (hashF (procF src))) fs hdel1
  have hnd1 : (namesOf fs1).Nodup := by
    rw [hfil1]
    exact ((List.filter_sublist fs).map Prod.fst).nodup Hnd
  have hqA : List.lookup "qore.css"
      (writeArtifacts (hashF (procF src)) (procF src) (gzF (procF src))
        (brF (procF src)) (replFam (targetOf (hashF (procF src))) txt).1 fs1) = some src := by
    rw [lookup_writeArtifacts_qore, hfil1,
      lookup_filter_keep _ (fun v => by rw [qore_not_stale]; rfl), Hsrc]
  have hiA := @lookup_writeArtifacts_index (hashF (procF src)) (procF src)
    (gzF (procF src)) (brF (procF src))
    (replFam (targetOf (hashF (procF src))) txt).1 fs1
  have hfoundA : containsLit (replFam (targetOf (hashF (procF src))) txt).1 = true :=
    containsLit_replFam Hhash Hfound
  have hndA := (@counts_writeArtifacts (hashF (procF src)) (procF src)
    (gzF (procF src)) (brF (procF src))
    (replFam (targetOf (hashF (procF src))) txt).1 fs1 hnd1).2.2.2
  obtain ⟨fs2, hdel2, hb2⟩ :=
    buildM_shape hashF procF gzF brF (fun _ => UnlinkRes.ok) _ src _ hul hqA hiA hfoundA
  have hfil2 := deleteStale_honest_filter (targetOf (hashF (procF src))) _ hdel2
  have hnd2 : (namesOf fs2).Nodup := by
    rw [hfil2]
    exact ((List.filter_sublist _).map Prod.fst).nodup hndA
  obtain ⟨hc1, hc2, hc3, _⟩ := @counts_writeArtifacts (hashF (procF src))
    (procF src) (gzF (procF src)) (brF (procF src))
    (replFam (targetOf (hashF (procF src)))
      (replFam (targetOf (hashF (procF src))) txt).1).1 fs2 hnd2
  refine ⟨_, _, hb1, hb2, hc1, hc2, hc3, ?_⟩
  intro n hn hfam
  rcases fam_writeArtifacts n hn hfam with hn1 | h3
  · rw [hfil2] at hn1
    have hn2 : n ∈ (namesOf
        (writeArtifacts (hashF (procF src)) (procF src) (gzF (procF src))
          (brF (procF src)) (replFam (targetOf (hashF (procF src))) txt).1
          fs1)).filter (fun m => !(isStaleArtifact (targetOf (hashF (procF src))) m)) := by
      rw [← names_filter]
      exact hn1
    have hkeep := (List.mem_filter.mp hn2).2
    have hst : isStaleArtifact (targetOf (hashF (procF src))) n = false := by
      cases hv : isStaleArtifact (targetOf (hashF (procF src))) n
      · rfl
      · rw [hv] at hkeep
        cases hkeep
    exact famP_not_stale hfam hst
  · exact h3

/-- C7 (confirmed, spec-modelled: `scripts/build.js` is not among the
provided sources): a deletion that fails with not-found is absorbed and the
build completes, returning the new hash and writing the new hashed
artifact; a deletion failure other than not-found on a scheduled file
aborts the build with an error. -/
theorem build_race_tolerant (hashF procF gzF brF : String → String) (fs : FS)
    (src txt : String)
    (Hsrc : List.lookup "qore.css" fs = some src)
    (Hidx : List.lookup "index.js" fs = some txt)
    (Hfound : containsLit txt = true) :
    (∀ ul : String → UnlinkRes,
      (∀ n, ul n = UnlinkRes.ok ∨ ul n = UnlinkRes.enoent) →
      ∃ fs', buildM hashF procF gzF brF ul fs = .ok (hashF (procF src), fs') ∧
        List.lookup (targetOf (hashF (procF src))) fs' = some (procF src)) ∧
    (∀ ul : String → UnlinkRes,
      (∃ n ∈ (fs.map Prod.fst).filter
          (isStaleArtifact (targetOf (hashF (procF src)))), ∃ m, ul n = UnlinkRes.fail m) →
      ∃ e, buildM hashF procF gzF brF ul fs = .error e) := by
  constructor
  · intro ul hul
    obtain ⟨fs1, _, hb⟩ := buildM_shape hashF procF gzF brF ul fs src txt hul Hsrc Hidx Hfound
    exact ⟨_, hb, lookup_writeArtifacts_target⟩
  · intro ul hfail
    obtain ⟨e, he⟩ := deleteStale_fail fs hfail
    refine ⟨e, ?_⟩
    simp only [buildM, Hsrc, he]

/-- C1 (witness): two builds of a concrete two-file directory return the
same hash and leave exactly one artifact family. -/
theorem build_idempotent_witness :
    ((namesOf [("qore.css", "body{}"),
        ("index.js", "x core.aabbccdd.min.css y")]).Nodup ∧
      List.lookup "qore.css" [("qore.css", "body{}"),
        ("index.js", "x core.aabbccdd.min.css y")] = some "body{}" ∧
      List.lookup "index.js" [("qore.css", "body{}"),
        ("index.js", "x core.aabbccdd.min.css y")] =
          some "x core.aabbccdd.min.css y" ∧
      containsLit "x core.aabbccdd.min.css y" = true ∧
      is8HexStr "5c7df4d0" = true) ∧
    (∃ fsA fsB,
      buildRun (fun _ : String => "5c7df4d0") (fun s : String => s)
        (fun s : String => s) (fun s : String => s)
        [("qore.css", "body{}"), ("index.js", "x core.aabbccdd.min.css y")] =
          .ok ("5c7df4d0", fsA) ∧
      buildRun (fun _ : String => "5c7df4d0") (fun s : String => s)
        (fun s : String => s) (fun s : String => s) fsA = .ok ("5c7df4d0", fsB) ∧
      (namesOf fsB).count (targetOf "5c7df4d0") = 1 ∧
      (namesOf fsB).count (targetOf "5c7df4d0" ++ ".gz") = 1 ∧
      (namesOf fsB).count (targetOf "5c7df4d0" ++ ".br") = 1 ∧
      ∀ n ∈ namesOf fsB, coreRegexTest (stripComp n) = true →
        n = targetOf "5c7df4d0" ∨ n = targetOf "5c7df4d0" ++ ".gz" ∨
          n = targetOf "5c7df4d0" ++ ".br") :=
  ⟨⟨by decide, by decide, by decide, by decide, by decide⟩,
   build_idempotent (fun _ : String => "5c7df4d0") (fun s : String => s)
     (fun s : String => s) (fun s : String => s)
     [("qore.css", "body{}"), ("index.js", "x core.aabbccdd.min.css y")]
     "body{}" "x core.aabbccdd.min.css y"
     (by decide) (by decide) (by decide) (by decide) (by decide)⟩

/-- C7 (witness): with pre-seeded `deadbeef` artifacts, a build whose unlink
reports not-found for them still succeeds and writes the new artifact,
while a build whose unlink fails otherwise on a scheduled file aborts. -/
theorem build_race_tolerant_witness :
    (List.lookup "qore.css" [("qore.css", "body{}"),
        ("index.js", "core.5c7df4d0.min.css"), ("core.deadbeef.min.css", "old"),
        ("core.deadbeef.min.css.gz", "old"), ("core.deadbeef.min.css.br", "old")] =
          some "body{}" ∧
      List.lookup "index.js" [("qore.css", "body{}"),
        ("index.js", "core.5c7df4d0.min.css"), ("core.deadbeef.min.css", "old"),
        ("core.deadbeef.min.css.gz", "old"), ("core.deadbeef.min.css.br", "old")] =
          some "core.5c7df4d0.min.css" ∧
      containsLit "core.5c7df4d0.min.css" = true) ∧
    (∃ fs', buildM (fun _ : String => "5c7df4d0") (fun s : String => s)
        (fun s : String => s) (fun s : String => s)
        (fun n : String => if substrOf "deadbeef" n = true then UnlinkRes.enoent
          else UnlinkRes.ok)
        [("qore.css", "body{}"), ("index.js", "core.5c7df4d0.min.css"),
          ("core.deadbeef.min.css", "old"), ("core.deadbeef.min.css.gz", "old"),
          ("core.deadbeef.min.css.br", "old")] = .ok ("5c7df4d0", fs') ∧
      List.lookup (targetOf "5c7df4d0") fs' = some "body{}") ∧
    (∃ e, buildM (fun _ : String => "5c7df4d0") (fun s : String => s)
        (fun s : String => s) (fun s : String => s)
        (fun n : String => if n == "core.deadbeef.min.css" then
          UnlinkRes.fail "EACCES" else UnlinkRes.ok)
        [("qore.css", "body{}"), ("index.js", "core.5c7df4d0.min.css"),
          ("core.deadbeef.min.css", "old"), ("core.deadbeef.min.css.gz", "old"),
          ("core.deadbeef.min.css.br", "old")] = .error e) :=
  ⟨⟨by decide, by decide, by decide⟩,
   (build_race_tolerant (fun _ : String => "5c7df4d0") (fun s : String => s)
     (fun s : String => s) (fun s : String => s)
     [("qore.css", "body{}"), ("index.js", "core.5c7df4d0.min.css"),
       ("core.deadbeef.min.css", "old"), ("core.deadbeef.min.css.gz", "old"),
       ("core.deadbeef.min.css.br", "old")] "body{}" "core.5c7df4d0.min.css"
     (by decide) (by decide) (by decide)).1
     (fun n : String => if substrOf "deadbeef" n = true then UnlinkRes.enoent
       else UnlinkRes.ok)
     (fun n => by by_cases hb : substrOf "deadbeef" n = true <;> simp [hb]),
   (build_race_tolerant (fun _ : String => "5c7df4d0") (fun s : String => s)
     (fun s : String => s) (fun s : String => s)
     [("qore.css", "body{}"), ("index.js", "core.5c7df4d0.min.css"),
       ("core.deadbeef.min.css", "old"), ("core.deadbeef.min.css.gz", "old"),
       ("core.deadbeef.min.css.br", "old")] "body{}" "core.5c7df4d0.min.css"
     (by decide) (by decide) (by decide)).2
     (fun n : String => if n == "core.deadbeef.min.css" then
       UnlinkRes.fail "EACCES" else UnlinkRes.ok)
     ⟨"core.deadbeef.min.css", by decide, "EACCES", by decide⟩⟩

end QoreCSS
